import Mathlib

/-!
Shallow embedding of `e3nn/util/codegen/_mixin.py` (`CodeGenMixin`): the
manager that registers dynamically generated `fx.GraphModule`s as submodules
of a host torch module object, and the `__getstate__`/`__setstate__` pair that
replaces live (possibly TorchScript-compiled) submodules by tagged byte
buffers across pickling/deepcopy.

Modelling choices, each traceable to the source:
* A submodule is one of the runtime types the mixin dispatches on:
  `fx.GraphModule`, `torch._dynamo.OptimizedModule`, `torch.jit.ScriptModule`,
  or anything else (the `assert False` branch).  Each carries an opaque `Nat`
  payload standing for its behaviour/identity.
* `pickle.dumps`/`pickle.loads` and `torch.jit.save`/`torch.jit.load` are the
  external codec collaborators: injective encodings into `List Nat` byte
  buffers with partial inverses.
* The host's `_modules` OrderedDict is an insertion-ordered association list
  `List (String × TorchModule)`; a genuine Python dict has no duplicate keys, so
  theorems that need it assume `(keys l).Nodup`.  `dict.__setitem__` is
  `insertM` (update in place, else append), `del` is `removeM` (`none` models
  `KeyError`), attribute/submodule lookup is `lookupM`.
* The host is `modules` (its `_modules` dict), `codegen` (the `__codegen__`
  attribute; `none` models the attribute being absent, before the lazy
  initialization in `_codegen_register`), and `base` (the rest of
  `self.__dict__`, opaque to the mixin and copied verbatim).
* The global `e3nn.get_optimization_defaults()["jit_mode"]` setting and the
  external compiler `e3nn.util.jit.compile` are parameters (`jitMode`,
  `compile`); the compiler may fail (`none` models a raised exception).
* Python exceptions (`assert`, `KeyError`, `NotImplementedError`, decode
  failures) make an operation return `none`; `_codegen_register` additionally
  returns the partially-mutated host together with a success flag, because
  its caller-visible mutations happen before the point of failure.
-/

/-- The runtime representations a managed submodule can have: the mixin
dispatches on `isinstance` checks against exactly these classes. -/
inductive TorchModule where
  | fxGraphModule (data : Nat)
  | optimizedModule (data : Nat)
  | scriptModule (data : Nat)
  | otherModule (data : Nat)
deriving DecidableEq, Repr, Inhabited

/-- Byte buffers produced by the external codecs. -/
abbrev Bytes := List Nat

/-- The check `isinstance(m, fx.GraphModule)` — the assertion in `_codegen_register`. -/
def isGraphModule : TorchModule → Bool
  | .fxGraphModule _ => true
  | _ => false

/-- The check `isinstance(m, (fx.GraphModule, torch._dynamo.OptimizedModule))` — the
first branch of the `__getstate__` dispatch and the check after `pickle.loads`. -/
def isFxLoadable : TorchModule → Bool
  | .fxGraphModule _ => true
  | .optimizedModule _ => true
  | _ => false

/-- The check `isinstance(m, torch.jit.ScriptModule)`. -/
def isScriptModule : TorchModule → Bool
  | .scriptModule _ => true
  | _ => false

/-- Python `pickle.dumps`: a generic injective encoding of any module into bytes. -/
def pickleDumps : TorchModule → Bytes
  | .fxGraphModule d => [0, d]
  | .optimizedModule d => [1, d]
  | .scriptModule d => [2, d]
  | .otherModule d => [3, d]

/-- Python `pickle.loads`: partial inverse of `pickleDumps`; `none` models a raised
unpickling error on a malformed buffer. -/
def pickleLoads : Bytes → Option TorchModule
  | [0, d] => some (.fxGraphModule d)
  | [1, d] => some (.optimizedModule d)
  | [2, d] => some (.scriptModule d)
  | [3, d] => some (.otherModule d)
  | _ => none

/-- The call `torch.jit.save` into an `io.BytesIO` buffer: the dedicated TorchScript IR
encoder; only ever applied to `ScriptModule`s in the source. -/
def jitSave : TorchModule → Bytes
  | .scriptModule d => [d]
  | m => pickleDumps m

/-- The call `torch.jit.load` from a buffer: partial inverse of `jitSave` on
`ScriptModule`s; `none` models a raised decode error. -/
def jitLoad : Bytes → Option TorchModule
  | [d] => some (.scriptModule d)
  | _ => none

/-- Ordered-dict lookup (`d[k]` / `getattr` resolving a submodule). -/
def lookupM {α : Type} : List (String × α) → String → Option α
  | [], _ => none
  | (k, v) :: rest, n => if k = n then some v else lookupM rest n

/-- Ordered-dict assignment `d[k] = v`: updates the value in place when the
key exists, otherwise appends — Python dicts preserve first-insertion order. -/
def insertM {α : Type} : List (String × α) → String → α → List (String × α)
  | [], n, v => [(n, v)]
  | (k, w) :: rest, n, v =>
    if k = n then (k, v) :: rest else (k, w) :: insertM rest n v

/-- Ordered-dict deletion `del d[k]`: `none` models the `KeyError` raised when
the key is absent. -/
def removeM {α : Type} : List (String × α) → String → Option (List (String × α))
  | [], _ => none
  | (k, w) :: rest, n =>
    if k = n then some rest else (removeM rest n).map (fun l => (k, w) :: l)

/-- The key sequence of an ordered dict. -/
def keys {α : Type} (l : List (String × α)) : List String := l.map Prod.fst

/-- The host object the mixin is attached to: its `_modules` OrderedDict, its
`__codegen__` attribute (`none` when the attribute does not exist), and the
rest of `self.__dict__`, opaque to the mixin. -/
structure Host where
  modules : List (String × TorchModule)
  codegen : Option (List String)
  base : Nat
deriving DecidableEq, Repr, Inhabited

/-- An encoded-unit record `(buffer_type, buffer)` as stored under a name in
the `__codegen__` section of the state dict. -/
abbrev EncodedRecord := String × Bytes

/-- The state dict returned by `__getstate__` / consumed by `__setstate__`:
the copied `_modules` mapping, the optional `"__codegen__"` section of
encoded-unit records (absent when the host had no registry), and the opaque
remaining fields. -/
structure StateBlob where
  modules : List (String × TorchModule)
  codegenEntry : Option (List (String × EncodedRecord))
  base : Nat
deriving DecidableEq, Repr, Inhabited

/-- The per-unit body of `_codegen_register`'s loop, lines 39-51: assert the
incoming value is an `fx.GraphModule`; in `"script"` mode run the external
compiler and assert it produced a `ScriptModule`; install the result with
`add_module`.  Failure returns the host as already mutated (Python exceptions
do not roll back) together with `false`. -/
def registerLoop (compile : TorchModule → Option TorchModule) (jitMode : String) :
    List (String × TorchModule) → Host → Host × Bool
  | [], host => (host, true)
  | (fname, graphmod) :: rest, host =>
    if isGraphModule graphmod then
      if jitMode = "script" then
        match compile graphmod with
        | none => (host, false)
        | some scriptmod =>
          if isScriptModule scriptmod then
            registerLoop compile jitMode rest
              { host with modules := insertM host.modules fname scriptmod }
          else (host, false)
      else
        registerLoop compile jitMode rest
          { host with modules := insertM host.modules fname graphmod }
    else (host, false)

/-- The method `CodeGenMixin._codegen_register`: lazily initialize the `__codegen__`
registry, extend it with all incoming names, then install each unit
(compiling in `"script"` mode).  Returns the resulting host and whether the
call completed without raising. -/
def _codegen_register (compile : TorchModule → Option TorchModule) (jitMode : String)
    (funcs : List (String × TorchModule)) (host : Host) : Host × Bool :=
  let registry := host.codegen.getD []
  let host' : Host := { host with codegen := some (registry ++ keys funcs) }
  registerLoop compile jitMode funcs host'

/-- The classification of one managed submodule in `__getstate__`, lines
79-92: fx-like modules are pickled under tag `"fx"`, `ScriptModule`s are
saved as TorchScript IR under tag `"torchscript"`, anything else hits
`assert False`. -/
def encodeBuffer : TorchModule → Option EncodedRecord
  | m@(.fxGraphModule _) => some ("fx", pickleDumps m)
  | m@(.optimizedModule _) => some ("fx", pickleDumps m)
  | m@(.scriptModule _) => some ("torchscript", jitSave m)
  | .otherModule _ => none

/-- The `for fname in self.__codegen__` loop of `__getstate__`, lines 74-97:
look the live submodule up on the host (`getattr`), encode it, record the
`(buffer_type, buffer)` pair in `codegen_state`, and delete the entry from
the copied `_modules` dict (`KeyError` when already deleted). -/
def getstateLoop (host : Host) :
    List String → List (String × TorchModule) → List (String × EncodedRecord) →
    Option (List (String × TorchModule) × List (String × EncodedRecord))
  | [], mods, cg => some (mods, cg)
  | fname :: rest, mods, cg =>
    match lookupM host.modules fname with
    | none => none
    | some smod =>
      match encodeBuffer smod with
      | none => none
      | some record =>
        match removeM mods fname with
        | none => none
        | some mods' => getstateLoop host rest mods' (insertM cg fname record)

/-- The method `CodeGenMixin.__getstate__`: copy the state dict and its `_modules`
mapping, then replace every registered submodule by its encoded record under
the `"__codegen__"` key.  When the `__codegen__` attribute does not exist the
state dict is returned with no `"__codegen__"` section.  `none` models a
raised exception (`assert False`, `AttributeError`, `KeyError`). -/
def getstate (host : Host) : Option StateBlob :=
  match host.codegen with
  | none => some { modules := host.modules, codegenEntry := none, base := host.base }
  | some registry =>
    (getstateLoop host registry host.modules []).map fun r =>
      { modules := r.1, codegenEntry := some r.2, base := host.base }

/-- The per-record decode dispatch of `__setstate__`, lines 120-129: tag
`"fx"` goes through `pickle.loads` followed by the fx/`OptimizedModule`
isinstance assert, tag `"torchscript"` through `torch.jit.load` followed by
the `ScriptModule` assert, and any other tag raises `NotImplementedError`. -/
def decodeBuffer (buffer_type : String) (buffer : Bytes) : Option TorchModule :=
  if buffer_type = "fx" then
    match pickleLoads buffer with
    | some smod => if isFxLoadable smod then some smod else none
    | none => none
  else if buffer_type = "torchscript" then
    match jitLoad buffer with
    | some smod => if isScriptModule smod then some smod else none
    | none => none
  else none

/-- The `for fname, (buffer_type, buffer) in codegen_state.items()` loop of
`__setstate__`, lines 115-132: decode each record and install the result as a
submodule with `setattr`. -/
def setstateLoop :
    List (String × EncodedRecord) → List (String × TorchModule) →
    Option (List (String × TorchModule))
  | [], mods => some mods
  | (fname, record) :: rest, mods =>
    match decodeBuffer record.1 record.2 with
    | none => none
    | some smod => setstateLoop rest (insertM mods fname smod)

/-- The method `CodeGenMixin.__setstate__`: pop the `"__codegen__"` section, apply the
remaining state dict to the host (`self.__dict__.update(d)` — replaces
`_modules` and the base fields, leaves the `__codegen__` attribute alone),
then, when a section was present, decode and install every record and set
`self.__codegen__` to the list of the section's keys.  `none` models a raised
exception. -/
def setstate (host : Host) (d : StateBlob) : Option Host :=
  let hostMid : Host := { modules := d.modules, codegen := host.codegen, base := d.base }
  match d.codegenEntry with
  | none => some hostMid
  | some codegen_state =>
    (setstateLoop codegen_state hostMid.modules).map fun mods =>
      { modules := mods, codegen := some (keys codegen_state), base := d.base }

/-! ### Dictionary lemmas -/

@[simp]
theorem keys_nil {α : Type} : keys ([] : List (String × α)) = [] := rfl

@[simp]
theorem keys_cons {α : Type} (k : String) (v : α) (rest : List (String × α)) :
    keys ((k, v) :: rest) = k :: keys rest := rfl

theorem lookupM_cons_self {α : Type} (k : String) (v : α) (rest : List (String × α)) :
    lookupM ((k, v) :: rest) k = some v := by
  simp [lookupM]

theorem lookupM_cons_ne {α : Type} (k n : String) (v : α) (rest : List (String × α))
    (h : ¬ k = n) : lookupM ((k, v) :: rest) n = lookupM rest n := by
  simp [lookupM, h]

theorem insertM_cons_self {α : Type} (k : String) (v w : α) (rest : List (String × α)) :
    insertM ((k, w) :: rest) k v = (k, v) :: rest := by
  simp [insertM]

theorem insertM_cons_ne {α : Type} (k n : String) (v w : α) (rest : List (String × α))
    (h : ¬ k = n) : insertM ((k, w) :: rest) n v = (k, w) :: insertM rest n v := by
  simp [insertM, h]

theorem removeM_cons_self {α : Type} (k : String) (v : α) (rest : List (String × α)) :
    removeM ((k, v) :: rest) k = some rest := by
  simp [removeM]

theorem removeM_cons_ne {α : Type} (k n : String) (v : α) (rest : List (String × α))
    (h : ¬ k = n) :
    removeM ((k, v) :: rest) n = (removeM rest n).map (fun l => (k, v) :: l) := by
  simp [removeM, h]

theorem lookupM_eq_none_iff {α : Type} (l : List (String × α)) (n : String) :
    lookupM l n = none ↔ n ∉ keys l := by
  induction l with
  | nil => simp [lookupM]
  | cons p rest ih =>
    obtain ⟨k, v⟩ := p
    by_cases h : k = n
    · subst h
      simp [lookupM_cons_self, keys_cons]
    · have h' : ¬ n = k := fun hc => h hc.symm
      simp [lookupM_cons_ne k n v rest h, keys_cons, h', ih]

theorem lookupM_isSome_iff {α : Type} (l : List (String × α)) (n : String) :
    (lookupM l n).isSome = true ↔ n ∈ keys l := by
  constructor
  · intro h
    by_contra hc
    rw [← lookupM_eq_none_iff] at hc
    rw [hc] at h
    simp at h
  · intro h
    cases hl : lookupM l n with
    | none => exact absurd h ((lookupM_eq_none_iff l n).mp hl)
    | some v => simp

theorem lookupM_insertM_self {α : Type} (l : List (String × α)) (n : String) (v : α) :
    lookupM (insertM l n v) n = some v := by
  induction l with
  | nil => simp [insertM, lookupM]
  | cons p rest ih =>
    obtain ⟨k, w⟩ := p
    by_cases h : k = n
    · subst h
      rw [insertM_cons_self, lookupM_cons_self]
    · rw [insertM_cons_ne k n v w rest h, lookupM_cons_ne k n w (insertM rest n v) h]
      exact ih

theorem lookupM_insertM_ne {α : Type} (l : List (String × α)) (n m : String) (v : α)
    (h : m ≠ n) : lookupM (insertM l n v) m = lookupM l m := by
  induction l with
  | nil =>
    have h' : ¬ n = m := fun hc => h hc.symm
    simp [insertM, lookupM, h']
  | cons p rest ih =>
    obtain ⟨k, w⟩ := p
    by_cases hk : k = n
    · subst hk
      have hkm : ¬ k = m := fun hc => h hc.symm
      rw [insertM_cons_self, lookupM_cons_ne k m v rest hkm, lookupM_cons_ne k m w rest hkm]
    · rw [insertM_cons_ne k n v w rest hk]
      by_cases hm : k = m
      · subst hm
        rw [lookupM_cons_self, lookupM_cons_self]
      · rw [lookupM_cons_ne k m w (insertM rest n v) hm, lookupM_cons_ne k m w rest hm]
        exact ih

theorem mem_keys_insertM {α : Type} (l : List (String × α)) (n m : String) (v : α) :
    m ∈ keys (insertM l n v) ↔ m ∈ keys l ∨ m = n := by
  induction l with
  | nil => simp [insertM]
  | cons p rest ih =>
    obtain ⟨k, w⟩ := p
    by_cases h : k = n
    · subst h
      rw [insertM_cons_self]
      simp only [keys_cons, List.mem_cons]
      tauto
    · rw [insertM_cons_ne k n v w rest h]
      simp only [keys_cons, List.mem_cons, ih]
      tauto

theorem keys_insertM_of_not_mem {α : Type} (l : List (String × α)) (n : String) (v : α)
    (h : n ∉ keys l) : keys (insertM l n v) = keys l ++ [n] := by
  induction l with
  | nil => simp [insertM]
  | cons p rest ih =>
    obtain ⟨k, w⟩ := p
    simp only [keys_cons, List.mem_cons, not_or] at h
    obtain ⟨h1, h2⟩ := h
    rw [insertM_cons_ne k n v w rest (fun hc => h1 hc.symm)]
    simp [ih h2]

theorem removeM_eq_none_iff {α : Type} (l : List (String × α)) (n : String) :
    removeM l n = none ↔ n ∉ keys l := by
  induction l with
  | nil => simp [removeM]
  | cons p rest ih =>
    obtain ⟨k, v⟩ := p
    by_cases h : k = n
    · subst h
      simp [removeM_cons_self]
    · have h' : ¬ n = k := fun hc => h hc.symm
      rw [removeM_cons_ne k n v rest h]
      simp [Option.map_eq_none', ih, h']

theorem removeM_keys_subset {α : Type} (l l' : List (String × α)) (n m : String)
    (hrem : removeM l n = some l') (hm : m ∈ keys l') : m ∈ keys l := by
  induction l generalizing l' with
  | nil => simp [removeM] at hrem
  | cons p rest ih =>
    obtain ⟨k, v⟩ := p
    by_cases h : k = n
    · subst h
      rw [removeM_cons_self] at hrem
      cases hrem
      simp only [keys_cons, List.mem_cons]
      exact Or.inr hm
    · rw [removeM_cons_ne k n v rest h] at hrem
      obtain ⟨r', hr, heq⟩ := Option.map_eq_some'.mp hrem
      subst heq
      simp only [keys_cons, List.mem_cons] at hm ⊢
      rcases hm with hm | hm
      · exact Or.inl hm
      · exact Or.inr (ih r' hr hm)

theorem lookupM_removeM_ne {α : Type} (l l' : List (String × α)) (n m : String)
    (hrem : removeM l n = some l') (h : m ≠ n) : lookupM l' m = lookupM l m := by
  induction l generalizing l' with
  | nil => simp [removeM] at hrem
  | cons p rest ih =>
    obtain ⟨k, v⟩ := p
    by_cases hk : k = n
    · subst hk
      rw [removeM_cons_self] at hrem
      cases hrem
      rw [lookupM_cons_ne k m v rest (fun hc => h hc.symm)]
    · rw [removeM_cons_ne k n v rest hk] at hrem
      obtain ⟨r', hr, heq⟩ := Option.map_eq_some'.mp hrem
      subst heq
      by_cases hm : k = m
      · subst hm
        rw [lookupM_cons_self, lookupM_cons_self]
      · rw [lookupM_cons_ne k m v r' hm, lookupM_cons_ne k m v rest hm]
        exact ih r' hr

theorem not_mem_keys_removeM {α : Type} (l l' : List (String × α)) (n : String)
    (hnd : (keys l).Nodup) (hrem : removeM l n = some l') : n ∉ keys l' := by
  induction l generalizing l' with
  | nil => simp [removeM] at hrem
  | cons p rest ih =>
    obtain ⟨k, v⟩ := p
    simp only [keys_cons, List.nodup_cons] at hnd
    by_cases hk : k = n
    · subst hk
      rw [removeM_cons_self] at hrem
      cases hrem
      exact hnd.1
    · rw [removeM_cons_ne k n v rest hk] at hrem
      obtain ⟨r', hr, heq⟩ := Option.map_eq_some'.mp hrem
      subst heq
      simp only [keys_cons, List.mem_cons, not_or]
      exact ⟨fun hc => hk hc.symm, ih r' hnd.2 hr⟩

theorem keys_removeM_nodup {α : Type} (l l' : List (String × α)) (n : String)
    (hnd : (keys l).Nodup) (hrem : removeM l n = some l') : (keys l').Nodup := by
  induction l generalizing l' with
  | nil => simp [removeM] at hrem
  | cons p rest ih =>
    obtain ⟨k, v⟩ := p
    simp only [keys_cons, List.nodup_cons] at hnd
    by_cases hk : k = n
    · subst hk
      rw [removeM_cons_self] at hrem
      cases hrem
      exact hnd.2
    · rw [removeM_cons_ne k n v rest hk] at hrem
      obtain ⟨r', hr, heq⟩ := Option.map_eq_some'.mp hrem
      subst heq
      simp only [keys_cons, List.nodup_cons]
      exact ⟨fun hc => hnd.1 (removeM_keys_subset rest r' n k hr hc), ih r' hnd.2 hr⟩

/-! ### Snapshot-loop lemmas -/

theorem getstateLoop_keys_subset (host : Host) (reg : List String) :
    ∀ mods cg mods' cg', getstateLoop host reg mods cg = some (mods', cg') →
    ∀ m, m ∈ keys mods' → m ∈ keys mods := by
  induction reg with
  | nil =>
    intro mods cg mods' cg' h m hm
    simp only [getstateLoop, Option.some.injEq, Prod.mk.injEq] at h
    exact h.1 ▸ hm
  | cons fname rest ih =>
    intro mods cg mods' cg' h m hm
    cases hlk : lookupM host.modules fname with
    | none => simp [getstateLoop, hlk] at h
    | some smod =>
      cases henc : encodeBuffer smod with
      | none => simp [getstateLoop, hlk, henc] at h
      | some record =>
        cases hrem : removeM mods fname with
        | none => simp [getstateLoop, hlk, henc, hrem] at h
        | some mods2 =>
          simp only [getstateLoop, hlk, henc, hrem] at h
          exact removeM_keys_subset mods mods2 fname m hrem
            (ih mods2 (insertM cg fname record) mods' cg' h m hm)

theorem getstateLoop_resolves (host : Host) (reg : List String) :
    ∀ mods cg r, getstateLoop host reg mods cg = some r →
    ∀ n ∈ reg, ∃ m, lookupM host.modules n = some m ∧ (encodeBuffer m).isSome = true := by
  induction reg with
  | nil => intro mods cg r _ n hn; simp at hn
  | cons fname rest ih =>
    intro mods cg r h n hn
    cases hlk : lookupM host.modules fname with
    | none => simp [getstateLoop, hlk] at h
    | some smod =>
      cases henc : encodeBuffer smod with
      | none => simp [getstateLoop, hlk, henc] at h
      | some record =>
        cases hrem : removeM mods fname with
        | none => simp [getstateLoop, hlk, henc, hrem] at h
        | some mods2 =>
          simp only [getstateLoop, hlk, henc, hrem] at h
          rcases List.mem_cons.mp hn with hn | hn
          · subst hn
            exact ⟨smod, hlk, by simp [henc]⟩
          · exact ih mods2 (insertM cg fname record) r h n hn

theorem getstateLoop_removed (host : Host) (reg : List String) :
    ∀ mods cg mods' cg', (keys mods).Nodup →
    getstateLoop host reg mods cg = some (mods', cg') →
    ∀ n ∈ reg, n ∉ keys mods' := by
  induction reg with
  | nil => intro mods cg mods' cg' _ _ n hn; simp at hn
  | cons fname rest ih =>
    intro mods cg mods' cg' hnd h n hn
    cases hlk : lookupM host.modules fname with
    | none => simp [getstateLoop, hlk] at h
    | some smod =>
      cases henc : encodeBuffer smod with
      | none => simp [getstateLoop, hlk, henc] at h
      | some record =>
        cases hrem : removeM mods fname with
        | none => simp [getstateLoop, hlk, henc, hrem] at h
        | some mods2 =>
          simp only [getstateLoop, hlk, henc, hrem] at h
          rcases List.mem_cons.mp hn with hn | hn
          · subst hn
            intro hc
            exact not_mem_keys_removeM mods mods2 n hnd hrem
              (getstateLoop_keys_subset host rest mods2 (insertM cg n record) mods' cg' h n hc)
          · exact ih mods2 (insertM cg fname record) mods' cg'
              (keys_removeM_nodup mods mods2 fname hnd hrem) h n hn

theorem getstateLoop_lookup_preserved (host : Host) (reg : List String) :
    ∀ mods cg mods' cg', getstateLoop host reg mods cg = some (mods', cg') →
    ∀ m, m ∉ reg → lookupM mods' m = lookupM mods m := by
  induction reg with
  | nil =>
    intro mods cg mods' cg' h m _
    simp only [getstateLoop, Option.some.injEq, Prod.mk.injEq] at h
    rw [← h.1]
  | cons fname rest ih =>
    intro mods cg mods' cg' h m hm
    simp only [List.mem_cons, not_or] at hm
    cases hlk : lookupM host.modules fname with
    | none => simp [getstateLoop, hlk] at h
    | some smod =>
      cases henc : encodeBuffer smod with
      | none => simp [getstateLoop, hlk, henc] at h
      | some record =>
        cases hrem : removeM mods fname with
        | none => simp [getstateLoop, hlk, henc, hrem] at h
        | some mods2 =>
          simp only [getstateLoop, hlk, henc, hrem] at h
          rw [ih mods2 (insertM cg fname record) mods' cg' h m hm.2]
          exact lookupM_removeM_ne mods mods2 fname m hrem hm.1

theorem getstateLoop_cg_preserved (host : Host) (reg : List String) :
    ∀ mods cg mods' cg', getstateLoop host reg mods cg = some (mods', cg') →
    ∀ n, n ∉ reg → lookupM cg' n = lookupM cg n := by
  induction reg with
  | nil =>
    intro mods cg mods' cg' h n _
    simp only [getstateLoop, Option.some.injEq, Prod.mk.injEq] at h
    rw [← h.2]
  | cons fname rest ih =>
    intro mods cg mods' cg' h n hn
    simp only [List.mem_cons, not_or] at hn
    cases hlk : lookupM host.modules fname with
    | none => simp [getstateLoop, hlk] at h
    | some smod =>
      cases henc : encodeBuffer smod with
      | none => simp [getstateLoop, hlk, henc] at h
      | some record =>
        cases hrem : removeM mods fname with
        | none => simp [getstateLoop, hlk, henc, hrem] at h
        | some mods2 =>
          simp only [getstateLoop, hlk, henc, hrem] at h
          rw [ih mods2 (insertM cg fname record) mods' cg' h n hn.2]
          exact lookupM_insertM_ne cg fname n record hn.1

theorem getstateLoop_cg_lookup (host : Host) (reg : List String) :
    ∀ mods cg mods' cg', reg.Nodup →
    getstateLoop host reg mods cg = some (mods', cg') →
    ∀ n ∈ reg, ∃ m, lookupM host.modules n = some m ∧ lookupM cg' n = encodeBuffer m := by
  induction reg with
  | nil => intro mods cg mods' cg' _ _ n hn; simp at hn
  | cons fname rest ih =>
    intro mods cg mods' cg' hnd h n hn
    rw [List.nodup_cons] at hnd
    cases hlk : lookupM host.modules fname with
    | none => simp [getstateLoop, hlk] at h
    | some smod =>
      cases henc : encodeBuffer smod with
      | none => simp [getstateLoop, hlk, henc] at h
      | some record =>
        cases hrem : removeM mods fname with
        | none => simp [getstateLoop, hlk, henc, hrem] at h
        | some mods2 =>
          simp only [getstateLoop, hlk, henc, hrem] at h
          rcases List.mem_cons.mp hn with hn | hn
          · subst hn
            refine ⟨smod, hlk, ?_⟩
            rw [getstateLoop_cg_preserved host rest mods2 (insertM cg n record) mods' cg' h n hnd.1]
            rw [lookupM_insertM_self cg n record, henc]
          · exact ih mods2 (insertM cg fname record) mods' cg' hnd.2 h n hn

theorem getstateLoop_cg_keys (host : Host) (reg : List String) :
    ∀ mods cg mods' cg', reg.Nodup → (∀ n ∈ reg, n ∉ keys cg) →
    getstateLoop host reg mods cg = some (mods', cg') →
    keys cg' = keys cg ++ reg := by
  induction reg with
  | nil =>
    intro mods cg mods' cg' _ _ h
    simp only [getstateLoop, Option.some.injEq, Prod.mk.injEq] at h
    rw [← h.2, List.append_nil]
  | cons fname rest ih =>
    intro mods cg mods' cg' hnd hfresh h
    rw [List.nodup_cons] at hnd
    cases hlk : lookupM host.modules fname with
    | none => simp [getstateLoop, hlk] at h
    | some smod =>
      cases henc : encodeBuffer smod with
      | none => simp [getstateLoop, hlk, henc] at h
      | some record =>
        cases hrem : removeM mods fname with
        | none => simp [getstateLoop, hlk, henc, hrem] at h
        | some mods2 =>
          simp only [getstateLoop, hlk, henc, hrem] at h
          have hfname : fname ∉ keys cg := hfresh fname (List.mem_cons_self fname rest)
          have hkeys2 : keys (insertM cg fname record) = keys cg ++ [fname] :=
            keys_insertM_of_not_mem cg fname record hfname
          have hfresh2 : ∀ n ∈ rest, n ∉ keys (insertM cg fname record) := by
            intro n hn
            rw [hkeys2]
            simp only [List.mem_append, List.mem_singleton, not_or]
            exact ⟨hfresh n (List.mem_cons_of_mem fname hn), fun hc => hnd.1 (hc ▸ hn)⟩
          rw [ih mods2 (insertM cg fname record) mods' cg' hnd.2 hfresh2 h, hkeys2]
          simp

theorem getstateLoop_success (host : Host) (reg : List String) :
    ∀ mods cg, reg.Nodup → (keys mods).Nodup →
    (∀ n ∈ reg, ∃ m, lookupM host.modules n = some m ∧ (encodeBuffer m).isSome = true) →
    (∀ n ∈ reg, n ∈ keys mods) →
    ∃ r, getstateLoop host reg mods cg = some r := by
  induction reg with
  | nil => intro mods cg _ _ _ _; exact ⟨(mods, cg), rfl⟩
  | cons fname rest ih =>
    intro mods cg hnd hkeys hres hmem
    rw [List.nodup_cons] at hnd
    obtain ⟨smod, hlk, henc⟩ := hres fname (List.mem_cons_self fname rest)
    obtain ⟨record, henc⟩ := Option.isSome_iff_exists.mp henc
    have hfmem : fname ∈ keys mods := hmem fname (List.mem_cons_self fname rest)
    cases hrem : removeM mods fname with
    | none => exact absurd ((removeM_eq_none_iff mods fname).mp hrem) (fun hc => hc hfmem)
    | some mods2 =>
      have hres2 : ∀ n ∈ rest, ∃ m, lookupM host.modules n = some m ∧ (encodeBuffer m).isSome = true :=
        fun n hn => hres n (List.mem_cons_of_mem fname hn)
      have hmem2 : ∀ n ∈ rest, n ∈ keys mods2 := by
        intro n hn
        have hne : n ≠ fname := fun hc => hnd.1 (hc ▸ hn)
        rw [← lookupM_isSome_iff, lookupM_removeM_ne mods mods2 fname n hrem hne,
          lookupM_isSome_iff]
        exact hmem n (List.mem_cons_of_mem fname hn)
      obtain ⟨r, hr⟩ := ih mods2 (insertM cg fname record) hnd.2
        (keys_removeM_nodup mods mods2 fname hkeys hrem) hres2 hmem2
      refine ⟨r, ?_⟩
      simp only [getstateLoop, hlk, henc, hrem]
      exact hr

theorem getstateLoop_none_of_missing (host : Host) (reg : List String) :
    ∀ mods cg n, n ∈ reg → n ∉ keys mods →
    getstateLoop host reg mods cg = none := by
  induction reg with
  | nil => intro mods cg n hn _; simp at hn
  | cons fname rest ih =>
    intro mods cg n hn hmiss
    cases hlk : lookupM host.modules fname with
    | none => simp [getstateLoop, hlk]
    | some smod =>
      cases henc : encodeBuffer smod with
      | none => simp [getstateLoop, hlk, henc]
      | some record =>
        cases hrem : removeM mods fname with
        | none => simp [getstateLoop, hlk, henc, hrem]
        | some mods2 =>
          simp only [getstateLoop, hlk, henc, hrem]
          rcases List.mem_cons.mp hn with hn | hn
          · subst hn
            have hnone : removeM mods n = none := (removeM_eq_none_iff mods n).mpr hmiss
            rw [hnone] at hrem
            cases hrem
          · have hmiss2 : n ∉ keys mods2 := fun hc =>
              hmiss (removeM_keys_subset mods mods2 fname n hrem hc)
            exact ih mods2 (insertM cg fname record) n hn hmiss2

theorem getstateLoop_none_of_dup (host : Host) (reg : List String) :
    ∀ mods cg, (keys mods).Nodup → ¬ reg.Nodup →
    getstateLoop host reg mods cg = none := by
  induction reg with
  | nil => intro mods cg _ hdup; exact absurd List.nodup_nil hdup
  | cons fname rest ih =>
    intro mods cg hkeys hdup
    rw [List.nodup_cons] at hdup
    push_neg at hdup
    cases hlk : lookupM host.modules fname with
    | none => simp [getstateLoop, hlk]
    | some smod =>
      cases henc : encodeBuffer smod with
      | none => simp [getstateLoop, hlk, henc]
      | some record =>
        cases hrem : removeM mods fname with
        | none => simp [getstateLoop, hlk, henc, hrem]
        | some mods2 =>
          simp only [getstateLoop, hlk, henc, hrem]
          by_cases hf : fname ∈ rest
          · exact getstateLoop_none_of_missing host rest mods2 (insertM cg fname record)
              fname hf (not_mem_keys_removeM mods mods2 fname hkeys hrem)
          · exact ih mods2 (insertM cg fname record)
              (keys_removeM_nodup mods mods2 fname hkeys hrem) (hdup hf)

theorem getstateLoop_mem_keys (host : Host) (reg : List String)
    (mods : List (String × TorchModule)) (cg : List (String × EncodedRecord))
    (mods' : List (String × TorchModule)) (cg' : List (String × EncodedRecord))
    (hkeys : (keys mods).Nodup)
    (h : getstateLoop host reg mods cg = some (mods', cg')) :
    ∀ m, m ∈ keys mods' ↔ (m ∈ keys mods ∧ m ∉ reg) := by
  intro m
  constructor
  · intro hm
    refine ⟨getstateLoop_keys_subset host reg mods cg mods' cg' h m hm, fun hr => ?_⟩
    exact getstateLoop_removed host reg mods cg mods' cg' hkeys h m hr hm
  · intro ⟨hm, hr⟩
    rw [← lookupM_isSome_iff,
      getstateLoop_lookup_preserved host reg mods cg mods' cg' h m hr,
      lookupM_isSome_iff]
    exact hm

/-! ### Codec lemmas -/

theorem encodeBuffer_roundtrip (m : TorchModule)
    (h : isFxLoadable m = true ∨ isScriptModule m = true) :
    ∃ record, encodeBuffer m = some record ∧ decodeBuffer record.1 record.2 = some m := by
  cases m with
  | fxGraphModule d => exact ⟨("fx", [0, d]), rfl, rfl⟩
  | optimizedModule d => exact ⟨("fx", [1, d]), rfl, rfl⟩
  | scriptModule d => exact ⟨("torchscript", [d]), rfl, rfl⟩
  | otherModule d => simp [isFxLoadable, isScriptModule] at h

theorem encodeBuffer_isSome (m : TorchModule)
    (h : isFxLoadable m = true ∨ isScriptModule m = true) :
    (encodeBuffer m).isSome = true := by
  obtain ⟨record, henc, _⟩ := encodeBuffer_roundtrip m h
  simp [henc]

theorem encodeBuffer_tag (m : TorchModule) (record : EncodedRecord)
    (h : encodeBuffer m = some record) :
    record.1 = "fx" ∨ record.1 = "torchscript" := by
  cases m with
  | fxGraphModule d => cases h; exact Or.inl rfl
  | optimizedModule d => cases h; exact Or.inl rfl
  | scriptModule d => cases h; exact Or.inr rfl
  | otherModule d => cases h

theorem decodeBuffer_badtag (t : String) (b : Bytes)
    (h1 : t ≠ "fx") (h2 : t ≠ "torchscript") : decodeBuffer t b = none := by
  simp [decodeBuffer, h1, h2]

/-! ### Restore-loop lemmas -/

theorem setstateLoop_success (cg : List (String × EncodedRecord)) :
    ∀ mods, (∀ e ∈ cg, (decodeBuffer e.2.1 e.2.2).isSome = true) →
    ∃ mods', setstateLoop cg mods = some mods' := by
  induction cg with
  | nil => intro mods _; exact ⟨mods, rfl⟩
  | cons e rest ih =>
    intro mods hdec
    obtain ⟨fname, record⟩ := e
    obtain ⟨smod, hs⟩ := Option.isSome_iff_exists.mp
      (hdec (fname, record) (List.mem_cons_self _ _))
    obtain ⟨mods', hm⟩ := ih (insertM mods fname smod)
      (fun q hq => hdec q (List.mem_cons_of_mem _ hq))
    refine ⟨mods', ?_⟩
    simp only [setstateLoop, hs]
    exact hm

theorem setstateLoop_mem_keys (cg : List (String × EncodedRecord)) :
    ∀ mods mods', setstateLoop cg mods = some mods' →
    ∀ m, m ∈ keys mods' ↔ m ∈ keys mods ∨ m ∈ keys cg := by
  induction cg with
  | nil =>
    intro mods mods' h m
    simp only [setstateLoop, Option.some.injEq] at h
    subst h
    simp
  | cons e rest ih =>
    intro mods mods' h m
    obtain ⟨fname, record⟩ := e
    cases hdec : decodeBuffer record.1 record.2 with
    | none => simp [setstateLoop, hdec] at h
    | some smod =>
      simp only [setstateLoop, hdec] at h
      rw [ih (insertM mods fname smod) mods' h m, mem_keys_insertM mods fname m smod]
      simp only [keys_cons, List.mem_cons]
      tauto

theorem setstateLoop_lookup_preserved (cg : List (String × EncodedRecord)) :
    ∀ mods mods', setstateLoop cg mods = some mods' →
    ∀ m, m ∉ keys cg → lookupM mods' m = lookupM mods m := by
  induction cg with
  | nil =>
    intro mods mods' h m _
    simp only [setstateLoop, Option.some.injEq] at h
    subst h
    rfl
  | cons e rest ih =>
    intro mods mods' h m hm
    obtain ⟨fname, record⟩ := e
    simp only [keys_cons, List.mem_cons, not_or] at hm
    cases hdec : decodeBuffer record.1 record.2 with
    | none => simp [setstateLoop, hdec] at h
    | some smod =>
      simp only [setstateLoop, hdec] at h
      rw [ih (insertM mods fname smod) mods' h m hm.2]
      exact lookupM_insertM_ne mods fname m smod hm.1

theorem setstateLoop_lookup_decoded (cg : List (String × EncodedRecord)) :
    ∀ mods mods', (keys cg).Nodup → setstateLoop cg mods = some mods' →
    ∀ e ∈ cg, lookupM mods' e.1 = decodeBuffer e.2.1 e.2.2 := by
  induction cg with
  | nil => intro mods mods' _ _ e he; simp at he
  | cons e0 rest ih =>
    intro mods mods' hnd h e he
    obtain ⟨fname, record⟩ := e0
    simp only [keys_cons, List.nodup_cons] at hnd
    cases hdec : decodeBuffer record.1 record.2 with
    | none => simp [setstateLoop, hdec] at h
    | some smod =>
      simp only [setstateLoop, hdec] at h
      rcases List.mem_cons.mp he with he | he
      · subst he
        rw [setstateLoop_lookup_preserved rest (insertM mods fname smod) mods' h fname hnd.1,
          lookupM_insertM_self mods fname smod, hdec]
      · exact ih (insertM mods fname smod) mods' hnd.2 h e he

theorem setstateLoop_none_of_badtag (cg : List (String × EncodedRecord)) :
    ∀ mods n t b, (n, (t, b)) ∈ cg → t ≠ "fx" → t ≠ "torchscript" →
    setstateLoop cg mods = none := by
  induction cg with
  | nil => intro mods n t b hn _ _; simp at hn
  | cons e0 rest ih =>
    intro mods n t b hn h1 h2
    obtain ⟨fname, record⟩ := e0
    rcases List.mem_cons.mp hn with he | he
    · cases he
      simp [setstateLoop, decodeBuffer_badtag t b h1 h2]
    · cases hdec : decodeBuffer record.1 record.2 with
      | none => simp [setstateLoop, hdec]
      | some smod =>
        simp only [setstateLoop, hdec]
        exact ih (insertM mods fname smod) n t b he h1 h2

/-! ### Registration-loop lemmas -/

theorem registerLoop_frame (compile : TorchModule → Option TorchModule) (jitMode : String)
    (funcs : List (String × TorchModule)) :
    ∀ host, ((registerLoop compile jitMode funcs host).1).codegen = host.codegen ∧
      ((registerLoop compile jitMode funcs host).1).base = host.base := by
  induction funcs with
  | nil => intro host; exact ⟨rfl, rfl⟩
  | cons p rest ih =>
    intro host
    obtain ⟨fname, graphmod⟩ := p
    by_cases hg : isGraphModule graphmod
    · by_cases hm : jitMode = "script"
      · subst hm
        cases hc : compile graphmod with
        | none => simp [registerLoop, hg, hc]
        | some scriptmod =>
          by_cases hs : isScriptModule scriptmod
          · simp only [registerLoop, hg, hc, hs, if_true]
            exact ih _
          · simp [registerLoop, hg, hc, hs]
      · simp only [registerLoop, hg, if_true, if_neg hm]
        exact ih _
    · simp [registerLoop, hg]

theorem registerLoop_mono (compile : TorchModule → Option TorchModule) (jitMode : String)
    (funcs : List (String × TorchModule)) :
    ∀ host host', registerLoop compile jitMode funcs host = (host', true) →
    ∀ n, (lookupM host.modules n).isSome = true →
    (lookupM host'.modules n).isSome = true := by
  induction funcs with
  | nil =>
    intro host host' h n hn
    simp only [registerLoop, Prod.mk.injEq] at h
    rw [← h.1]
    exact hn
  | cons p rest ih =>
    intro host host' h n hn
    obtain ⟨fname, graphmod⟩ := p
    by_cases hg : isGraphModule graphmod
    · by_cases hm : jitMode = "script"
      · subst hm
        cases hc : compile graphmod with
        | none => simp [registerLoop, hg, hc] at h
        | some scriptmod =>
          by_cases hs : isScriptModule scriptmod
          · simp only [registerLoop, hg, hc, hs, if_true] at h
            refine ih _ host' h n ?_
            by_cases hne : n = fname
            · subst hne
              simp [lookupM_insertM_self]
            · simp only [lookupM_insertM_ne host.modules fname n scriptmod hne]
              exact hn
          · simp [registerLoop, hg, hc, hs] at h
      · simp only [registerLoop, hg, if_true, if_neg hm] at h
        refine ih _ host' h n ?_
        by_cases hne : n = fname
        · subst hne
          simp [lookupM_insertM_self]
        · simp only [lookupM_insertM_ne host.modules fname n graphmod hne]
          exact hn
    · simp [registerLoop, hg] at h

theorem registerLoop_installs (compile : TorchModule → Option TorchModule) (jitMode : String)
    (funcs : List (String × TorchModule)) :
    ∀ host host', registerLoop compile jitMode funcs host = (host', true) →
    ∀ n ∈ keys funcs, (lookupM host'.modules n).isSome = true := by
  induction funcs with
  | nil => intro host host' _ n hn; simp at hn
  | cons p rest ih =>
    intro host host' h n hn
    obtain ⟨fname, graphmod⟩ := p
    simp only [keys_cons, List.mem_cons] at hn
    by_cases hg : isGraphModule graphmod
    · by_cases hm : jitMode = "script"
      · subst hm
        cases hc : compile graphmod with
        | none => simp [registerLoop, hg, hc] at h
        | some scriptmod =>
          by_cases hs : isScriptModule scriptmod
          · simp only [registerLoop, hg, hc, hs, if_true] at h
            rcases hn with hn | hn
            · subst hn
              refine registerLoop_mono compile "script" rest _ host' h n ?_
              simp [lookupM_insertM_self]
            · exact ih _ host' h n hn
          · simp [registerLoop, hg, hc, hs] at h
      · simp only [registerLoop, hg, if_true, if_neg hm] at h
        rcases hn with hn | hn
        · subst hn
          refine registerLoop_mono compile jitMode rest _ host' h n ?_
          simp [lookupM_insertM_self]
        · exact ih _ host' h n hn
    · simp [registerLoop, hg] at h

theorem registerLoop_fail_partway (compile : TorchModule → Option TorchModule)
    (pre : List (String × TorchModule)) (badname : String) (badmod : TorchModule)
    (post : List (String × TorchModule)) :
    ∀ host,
    (∀ p ∈ pre, isGraphModule p.2 = true ∧ ∃ s, compile p.2 = some s ∧ isScriptModule s = true) →
    isGraphModule badmod = true → compile badmod = none →
    ∃ host', registerLoop compile "script" (pre ++ (badname, badmod) :: post) host = (host', false) ∧
      host'.codegen = host.codegen ∧ host'.base = host.base ∧
      ∀ n, n ∉ keys pre → lookupM host'.modules n = lookupM host.modules n := by
  induction pre with
  | nil =>
    intro host _ hbad hfail
    refine ⟨host, ?_, rfl, rfl, fun n _ => rfl⟩
    simp [registerLoop, hbad, hfail]
  | cons p rest ih =>
    intro host hpre hbad hfail
    obtain ⟨fname, graphmod⟩ := p
    obtain ⟨hg, s, hcs, hss⟩ := hpre (fname, graphmod) (List.mem_cons_self _ _)
    obtain ⟨host', hloop, hcg, hbase, hlook⟩ :=
      ih { host with modules := insertM host.modules fname s }
        (fun q hq => hpre q (List.mem_cons_of_mem _ hq)) hbad hfail
    refine ⟨host', ?_, hcg, hbase, ?_⟩
    · rw [List.cons_append]
      simp only [registerLoop, hg, hcs, hss, if_true]
      exact hloop
    · intro n hn
      simp only [keys_cons, List.mem_cons, not_or] at hn
      rw [hlook n hn.2]
      exact lookupM_insertM_ne host.modules fname n s hn.1

theorem mem_keys_of_mem {α : Type} (l : List (String × α)) (k : String) (v : α)
    (h : (k, v) ∈ l) : k ∈ keys l :=
  List.mem_map_of_mem Prod.fst h

theorem exists_of_mem_keys {α : Type} (l : List (String × α)) (k : String)
    (h : k ∈ keys l) : ∃ v, (k, v) ∈ l := by
  obtain ⟨⟨k', v⟩, hm, hk⟩ := List.mem_map.mp h
  exact ⟨v, hk ▸ hm⟩

theorem lookupM_eq_of_mem_nodup {α : Type} (l : List (String × α)) (k : String) (v : α)
    (hnd : (keys l).Nodup) (h : (k, v) ∈ l) : lookupM l k = some v := by
  induction l with
  | nil => simp at h
  | cons p rest ih =>
    obtain ⟨k0, v0⟩ := p
    simp only [keys_cons, List.nodup_cons] at hnd
    rcases List.mem_cons.mp h with he | he
    · cases he
      exact lookupM_cons_self k v rest
    · have hne : ¬ k0 = k := fun hc => hnd.1 (hc ▸ mem_keys_of_mem rest k v he)
      rw [lookupM_cons_ne k0 k v0 rest hne]
      exact ih hnd.2 he

/-! ### Claims -/

/-- Claim C3: for every state blob whose encoded-units section holds entries
under names `n1..nk` in a given stored order, after a successful
`__setstate__` the registry (`__codegen__`) equals exactly that list of names
in the same encounter order (`list(codegen_state.keys())`). -/
theorem claim3_registry_order (host host' : Host) (d : StateBlob)
    (cg : List (String × EncodedRecord))
    (hcg : d.codegenEntry = some cg)
    (h : setstate host d = some host') :
    host'.codegen = some (keys cg) := by
  simp only [setstate, hcg] at h
  obtain ⟨mods, hl, heq⟩ := Option.map_eq_some'.mp h
  rw [← heq]

/-- Claim C3 witness: registering units named `a`,`b`,`c` under mode `none`,
snapshotting, and restoring into a fresh host yields the registry
`["a","b","c"]` in exactly that order. -/
def claim3DemoHost : Host :=
  (_codegen_register (fun _ => none) "none"
    [("a", .fxGraphModule 1), ("b", .fxGraphModule 2), ("c", .fxGraphModule 3)]
    { modules := [], codegen := none, base := 0 }).1

/-- The blob produced by snapshotting `claim3DemoHost`. -/
def claim3DemoBlob : StateBlob := (getstate claim3DemoHost).getD default

/-- The host produced by restoring `claim3DemoBlob` into a fresh host. -/
def claim3DemoRestored : Host :=
  (setstate { modules := [], codegen := none, base := 0 } claim3DemoBlob).getD default

theorem claim3_registry_order_witness :
    claim3DemoRestored.codegen = some ["a", "b", "c"] :=
  claim3_registry_order { modules := [], codegen := none, base := 0 }
    claim3DemoRestored claim3DemoBlob
    [("a", ("fx", [0, 1])), ("b", ("fx", [0, 2])), ("c", ("fx", [0, 3]))]
    (by decide) (by decide)

/-- Claim C4: restoring a state blob that has no `"__codegen__"` section into
a host being reconstructed (one whose `__codegen__` attribute is absent, the
state pickle leaves it in after creating a bare instance) succeeds, applies
the remaining state (`_modules` and base fields) to the host, and leaves the
registry empty (the attribute stays absent, which the registration path
treats as the empty registry). -/
theorem claim4_no_section (host : Host) (d : StateBlob)
    (hhost : host.codegen = none) (hd : d.codegenEntry = none) :
    setstate host d = some { modules := d.modules, codegen := none, base := d.base } := by
  simp only [setstate, hd, hhost]

theorem claim4_no_section_witness :
    setstate { modules := [("x", .scriptModule 5)], codegen := none, base := 7 }
        { modules := [("y", .fxGraphModule 1)], codegenEntry := none, base := 9 } =
      some { modules := [("y", .fxGraphModule 1)], codegen := none, base := 9 } :=
  claim4_no_section _ _ rfl rfl

/-- Claim C5: restoring a blob whose encoded-units section contains an entry
whose tag is neither `"fx"` nor `"torchscript"` raises
(`NotImplementedError`), modelled as `setstate` returning `none`, never a
silent skip or a normal return. -/
theorem claim5_bad_tag (host : Host) (d : StateBlob)
    (cg : List (String × EncodedRecord)) (n t : String) (b : Bytes)
    (hcg : d.codegenEntry = some cg) (hmem : (n, (t, b)) ∈ cg)
    (h1 : t ≠ "fx") (h2 : t ≠ "torchscript") :
    setstate host d = none := by
  simp only [setstate, hcg]
  rw [setstateLoop_none_of_badtag cg d.modules n t b hmem h1 h2]
  rfl

theorem claim5_bad_tag_witness :
    setstate { modules := [], codegen := none, base := 0 }
        { modules := [], codegenEntry := some [("x", ("bogus", [0]))], base := 0 } =
      none :=
  claim5_bad_tag _ _ [("x", ("bogus", [0]))] "x" "bogus" [0]
    rfl (by decide) (by decide) (by decide)

/-- Claim C7: calling `_codegen_register` with a name already present in the
registry appends it again — the registry then holds the name at least twice
(duplicate registration is neither rejected nor idempotent). -/
theorem claim7_duplicate_registration (compile : TorchModule → Option TorchModule)
    (jitMode : String) (host : Host) (reg : List String) (n : String) (m : TorchModule)
    (hreg : host.codegen = some reg) (hn : n ∈ reg) :
    ((_codegen_register compile jitMode [(n, m)] host).1).codegen = some (reg ++ [n]) ∧
    2 ≤ (reg ++ [n]).count n := by
  constructor
  · simp only [_codegen_register]
    rw [(registerLoop_frame compile jitMode [(n, m)] _).1, hreg]
    rfl
  · have h1 : 0 < reg.count n := List.count_pos_iff.mpr hn
    have h2 : (reg ++ [n]).count n = reg.count n + 1 := by simp
    omega

theorem claim7_duplicate_registration_witness :
    (((_codegen_register (fun _ => none) "none" [("a", .fxGraphModule 1)]
        { modules := [("a", .fxGraphModule 0)], codegen := some ["a"], base := 0 }).1).codegen =
      some (["a"] ++ ["a"])) ∧
    2 ≤ ((["a"] : List String) ++ ["a"]).count "a" :=
  claim7_duplicate_registration (fun _ => none) "none"
    { modules := [("a", .fxGraphModule 0)], codegen := some ["a"], base := 0 }
    ["a"] "a" (.fxGraphModule 1) rfl (by decide)

/-- Claim C9: when the registry holds the same name twice (as duplicate
registration produces) on a host whose `_modules` dict has (as every Python
dict) unique keys, `__getstate__` raises instead of returning a blob: the
second occurrence hits `del out["_modules"][fname]` after the name was
already removed from the copy, a `KeyError`. -/
theorem claim9_duplicate_snapshot_fails (host : Host) (reg : List String)
    (hkeys : (keys host.modules).Nodup) (hreg : host.codegen = some reg)
    (hdup : ¬ reg.Nodup) : getstate host = none := by
  simp only [getstate, hreg]
  rw [getstateLoop_none_of_dup host reg host.modules [] hkeys hdup]
  rfl

theorem claim9_duplicate_snapshot_fails_witness :
    getstate { modules := [("a", .fxGraphModule 0)], codegen := some ["a", "a"], base := 0 } =
      none :=
  claim9_duplicate_snapshot_fails
    { modules := [("a", .fxGraphModule 0)], codegen := some ["a", "a"], base := 0 }
    ["a", "a"] (by decide) rfl (by decide)

/-- Claim C6: `__getstate__` leaves the live host unmodified.  In this pure
embedding the source's `out = out.copy()` and
`out["_modules"] = out["_modules"].copy()` mean every `del` acts on the copy
placed into the blob, so `getstate` is a function of the host and does not
touch it; the substantive observable fact proved here is that after a
successful snapshot every registered name still resolves to its live child on
the host, while the entry was removed from the blob's copied child mapping. -/
theorem claim6_snapshot_frame (host : Host) (reg : List String) (blob : StateBlob)
    (hkeys : (keys host.modules).Nodup) (hreg : host.codegen = some reg)
    (h : getstate host = some blob) :
    ∀ n ∈ reg, (lookupM host.modules n).isSome = true ∧ lookupM blob.modules n = none := by
  simp only [getstate, hreg] at h
  obtain ⟨⟨mods', cg'⟩, hl, heq⟩ := Option.map_eq_some'.mp h
  subst heq
  intro n hn
  obtain ⟨m, hm, _⟩ := getstateLoop_resolves host reg host.modules [] (mods', cg') hl n hn
  refine ⟨by simp [hm], ?_⟩
  rw [lookupM_eq_none_iff]
  exact getstateLoop_removed host reg host.modules [] mods' cg' hkeys hl n hn

theorem claim6_snapshot_frame_witness :
    (lookupM ({ modules := [("a", .fxGraphModule 1), ("k", .otherModule 9)],
                codegen := some ["a"], base := 3 } : Host).modules "a").isSome = true ∧
    lookupM ({ modules := [("k", .otherModule 9)],
               codegenEntry := some [("a", ("fx", [0, 1]))], base := 3 } : StateBlob).modules "a" = none :=
  claim6_snapshot_frame
    { modules := [("a", .fxGraphModule 1), ("k", .otherModule 9)],
      codegen := some ["a"], base := 3 }
    ["a"]
    { modules := [("k", .otherModule 9)],
      codegenEntry := some [("a", ("fx", [0, 1]))], base := 3 }
    (by decide) rfl (by decide) "a" (by decide)

/-- A host that satisfies claim C2's precondition — its registry is `["a"]`
and `"a"` resolves to a symbolic-form unit — but that additionally owns an
unregistered `ScriptModule` child `"b"`. -/
def claim2CexHost : Host :=
  { modules := [("a", .fxGraphModule 0), ("b", .scriptModule 7)],
    codegen := some ["a"], base := 0 }

/-- The blob `__getstate__` returns for `claim2CexHost`. -/
def claim2CexBlob : StateBlob :=
  { modules := [("b", .scriptModule 7)],
    codegenEntry := some [("a", ("fx", [0, 0]))], base := 0 }

/-- Claim C2 counterexample: the claim asserts the blob contains no live
compiled-form (`ScriptModule`) object anywhere, including the
child-component mapping.  But `__getstate__` removes only *registered* names
from the copied `_modules`; an unregistered `ScriptModule` child (`"b"`
here) is passed through alive in the blob's child mapping. -/
theorem claim2_counterexample :
    getstate claim2CexHost = some claim2CexBlob ∧
    lookupM claim2CexBlob.modules "b" = some (.scriptModule 7) ∧
    isScriptModule (.scriptModule 7) = true := by decide

/-- Claim C2 (amended): for every host whose registry names (no duplicates,
dict keys unique) all resolve, the blob holds, for every *registered* name, a
`(kind, bytes)` pair with kind `"fx"` or `"torchscript"` and a plain byte
buffer, and no registered name remains in the blob's child-component mapping
(unregistered children are passed through unchanged and may themselves be
compiled objects).  That the encoded-units section holds only byte buffers
and never live module objects is expressed by its type: its entries are
`String × Bytes` pairs, disjoint from `TorchModule`. -/
theorem claim2_no_compiled_leak (host : Host) (reg : List String) (blob : StateBlob)
    (hreg : host.codegen = some reg) (hnd : reg.Nodup)
    (hkeys : (keys host.modules).Nodup)
    (h : getstate host = some blob) :
    ∃ cg, blob.codegenEntry = some cg ∧
      ∀ n ∈ reg,
        (∃ b, lookupM cg n = some ("fx", b) ∨ lookupM cg n = some ("torchscript", b)) ∧
        lookupM blob.modules n = none := by
  simp only [getstate, hreg] at h
  obtain ⟨⟨mods', cg'⟩, hl, heq⟩ := Option.map_eq_some'.mp h
  subst heq
  refine ⟨cg', rfl, fun n hn => ?_⟩
  obtain ⟨m, hm, hcg⟩ := getstateLoop_cg_lookup host reg host.modules [] mods' cg' hnd hl n hn
  obtain ⟨m', hm', hsome⟩ := getstateLoop_resolves host reg host.modules [] (mods', cg') hl n hn
  rw [hm] at hm'
  cases hm'
  obtain ⟨record, hrec⟩ := Option.isSome_iff_exists.mp hsome
  constructor
  · obtain ⟨t, b⟩ := record
    rcases encodeBuffer_tag m (t, b) hrec with ht | ht <;> subst ht
    · exact ⟨b, Or.inl (by rw [hcg, hrec])⟩
    · exact ⟨b, Or.inr (by rw [hcg, hrec])⟩
  · rw [lookupM_eq_none_iff]
    exact getstateLoop_removed host reg host.modules [] mods' cg' hkeys hl n hn

theorem claim2_no_compiled_leak_witness :
    ∃ cg, ({ modules := [], codegenEntry := some [("u", ("torchscript", [6]))],
             base := 2 } : StateBlob).codegenEntry = some cg ∧
      ∀ n ∈ ["u"],
        (∃ b, lookupM cg n = some ("fx", b) ∨ lookupM cg n = some ("torchscript", b)) ∧
        lookupM ({ modules := [], codegenEntry := some [("u", ("torchscript", [6]))],
                   base := 2 } : StateBlob).modules n = none :=
  claim2_no_compiled_leak
    { modules := [("u", .scriptModule 6)], codegen := some ["u"], base := 2 }
    ["u"]
    { modules := [], codegenEntry := some [("u", ("torchscript", [6]))], base := 2 }
    rfl (by decide) (by decide) (by decide)

/-- The host produced by registering unit `a` once on a fresh host under mode
`none`. -/
def claim8CexHost : Host :=
  (_codegen_register (fun _ => none) "none" [("a", .fxGraphModule 0)]
    { modules := [], codegen := none, base := 0 }).1

/-- Claim C8 counterexample: the claim says every successful operation leaves
a registry in which no name appears twice, but a second successful
`_codegen_register` of the already-registered name `a` leaves the registry
`["a", "a"]`. -/
theorem claim8_counterexample :
    (_codegen_register (fun _ => none) "none" [("a", .fxGraphModule 0)] claim8CexHost).2 =
      true ∧
    ((_codegen_register (fun _ => none) "none" [("a", .fxGraphModule 0)] claim8CexHost).1).codegen =
      some ["a", "a"] ∧
    ¬ (["a", "a"] : List String).Nodup := by decide

/-- Claim C8 (amended): the resolution half of the invariant is preserved by
every successful operation — after a successful `_codegen_register` every
registry name resolves to a child (provided every previously registered name
did), and after a successful `__setstate__` with an encoded-units section
every registry name resolves to a child; restore moreover yields a
duplicate-free registry whenever the section's keys are unique (as the keys
of a Python dict are).  Registration, however, may append duplicate names
(claim C7), so the no-duplicates half holds for restore but not for
register. -/
theorem claim8_invariant_amended :
    (∀ (compile : TorchModule → Option TorchModule) (jitMode : String)
       (funcs : List (String × TorchModule)) (host host' : Host),
       _codegen_register compile jitMode funcs host = (host', true) →
       (∀ n ∈ host.codegen.getD [], (lookupM host.modules n).isSome = true) →
       ∀ n ∈ host'.codegen.getD [], (lookupM host'.modules n).isSome = true) ∧
    (∀ (host host' : Host) (d : StateBlob) (cg : List (String × EncodedRecord)),
       d.codegenEntry = some cg → setstate host d = some host' →
       (∀ n ∈ host'.codegen.getD [], (lookupM host'.modules n).isSome = true) ∧
       ((keys cg).Nodup → (host'.codegen.getD []).Nodup)) := by
  constructor
  · intro compile jitMode funcs host host' h hres n hn
    simp only [_codegen_register] at h
    have hcg : host'.codegen = some (host.codegen.getD [] ++ keys funcs) := by
      have hframe := (registerLoop_frame compile jitMode funcs
        { host with codegen := some (host.codegen.getD [] ++ keys funcs) }).1
      rw [h] at hframe
      exact hframe
    rw [hcg] at hn
    simp only [Option.getD_some] at hn
    rcases List.mem_append.mp hn with hn | hn
    · exact registerLoop_mono compile jitMode funcs _ host' h n (hres n hn)
    · exact registerLoop_installs compile jitMode funcs _ host' h n hn
  · intro host host' d cg hcg h
    simp only [setstate, hcg] at h
    obtain ⟨mods'', hl, heq⟩ := Option.map_eq_some'.mp h
    subst heq
    constructor
    · intro n hn
      simp only [Option.getD_some] at hn
      rw [lookupM_isSome_iff]
      exact (setstateLoop_mem_keys cg d.modules mods'' hl n).mpr (Or.inr hn)
    · intro hnd
      exact hnd

theorem claim8_invariant_amended_witness :
    (lookupM ((_codegen_register (fun _ => none) "none" [("v", .fxGraphModule 4)]
        { modules := [("w", .fxGraphModule 3)], codegen := some ["w"], base := 1 }).1).modules
      "v").isSome = true :=
  claim8_invariant_amended.1 (fun _ => none) "none" [("v", .fxGraphModule 4)]
    { modules := [("w", .fxGraphModule 3)], codegen := some ["w"], base := 1 }
    ((_codegen_register (fun _ => none) "none" [("v", .fxGraphModule 4)]
      { modules := [("w", .fxGraphModule 3)], codegen := some ["w"], base := 1 }).1)
    (by decide) (by decide) "v" (by decide)

/-- Claim C10: `_codegen_register` extends the registry with all incoming
names before the per-unit loop runs the compiler, so when the compiler raises
partway through (in `"script"` mode, after the units of `pre` compiled fine),
the call fails with the registry already holding every incoming name while
the failing unit and everything after it were never installed: submodule
lookups for every name outside `pre` are exactly what they were before the
call.  In particular, when the failing name was not previously a child and
not in `pre`, it is a registry name that resolves to no child. -/
theorem claim10_no_rollback (compile : TorchModule → Option TorchModule) (host : Host)
    (pre post : List (String × TorchModule)) (badname : String) (badmod : TorchModule)
    (hpre : ∀ p ∈ pre, isGraphModule p.2 = true ∧
      ∃ s, compile p.2 = some s ∧ isScriptModule s = true)
    (hbad : isGraphModule badmod = true) (hfail : compile badmod = none) :
    ∃ host',
      _codegen_register compile "script" (pre ++ (badname, badmod) :: post) host =
        (host', false) ∧
      host'.codegen =
        some (host.codegen.getD [] ++ keys (pre ++ (badname, badmod) :: post)) ∧
      (∀ n, n ∉ keys pre → lookupM host'.modules n = lookupM host.modules n) ∧
      (badname ∉ keys pre → badname ∉ keys host.modules →
        badname ∈ host'.codegen.getD [] ∧ lookupM host'.modules badname = none) := by
  obtain ⟨host', hloop, hcg, _, hlook⟩ :=
    registerLoop_fail_partway compile pre badname badmod post
      ⟨host.modules, some (host.codegen.getD [] ++ keys (pre ++ (badname, badmod) :: post)), host.base⟩
      hpre hbad hfail
  refine ⟨host', ?_, ?_, ?_, ?_⟩
  · simp only [_codegen_register]
    exact hloop
  · exact hcg
  · intro n hn
    exact hlook n hn
  · intro hnp hnm
    constructor
    · rw [hcg]
      simp only [Option.getD_some]
      refine List.mem_append_right _ ?_
      rw [keys, List.map_append]
      refine List.mem_append_right _ ?_
      exact List.mem_cons_self _ _
    · rw [hlook badname hnp, lookupM_eq_none_iff]
      exact hnm

/-- A compiler stand-in for the C10 witness: compiles the unit `fxGraphModule 1`
and fails (raises) on everything else. -/
def claim10Compile : TorchModule → Option TorchModule :=
  fun m => if m = .fxGraphModule 1 then some (.scriptModule 1) else none

theorem claim10_no_rollback_witness :
    ((_codegen_register claim10Compile "script"
        ([("ok", .fxGraphModule 1)] ++ ("bad", .fxGraphModule 2) :: [("q", .fxGraphModule 3)])
        { modules := [], codegen := none, base := 0 }).2 = false) ∧
    ((_codegen_register claim10Compile "script"
        ([("ok", .fxGraphModule 1)] ++ ("bad", .fxGraphModule 2) :: [("q", .fxGraphModule 3)])
        { modules := [], codegen := none, base := 0 }).1).codegen =
      some ["ok", "bad", "q"] ∧
    lookupM ((_codegen_register claim10Compile "script"
        ([("ok", .fxGraphModule 1)] ++ ("bad", .fxGraphModule 2) :: [("q", .fxGraphModule 3)])
        { modules := [], codegen := none, base := 0 }).1).modules "bad" = none := by
  obtain ⟨host', h1, h2, _, h4⟩ :=
    claim10_no_rollback claim10Compile { modules := [], codegen := none, base := 0 }
      [("ok", .fxGraphModule 1)] [("q", .fxGraphModule 3)] "bad" (.fxGraphModule 2)
      (by
        intro p hp
        simp only [List.mem_singleton] at hp
        subst hp
        exact ⟨rfl, .scriptModule 1, rfl, rfl⟩)
      rfl rfl
  rw [h1]
  obtain ⟨hmem, hnone⟩ := h4 (by decide) (by decide)
  exact ⟨rfl, h2, hnone⟩

/-- Claim C1: round-trip identity.  For a host whose registry (in either
symbolic or compiled representation, no duplicate names, dict keys unique)
fully resolves, `__setstate__ ∘ __getstate__` into any host under
reconstruction yields a host whose registry equals the original registry,
whose child-component name set equals the original's, and whose managed
children are the very modules of the original host (hence computing the same
outputs). -/
theorem claim1_roundtrip (host target : Host) (reg : List String)
    (hreg : host.codegen = some reg) (hnd : reg.Nodup)
    (hkeys : (keys host.modules).Nodup)
    (hres : ∀ n ∈ reg, ∃ m, lookupM host.modules n = some m ∧
      (isFxLoadable m = true ∨ isScriptModule m = true)) :
    ∃ blob host', getstate host = some blob ∧ setstate target blob = some host' ∧
      host'.codegen = some reg ∧
      (∀ n, n ∈ keys host'.modules ↔ n ∈ keys host.modules) ∧
      (∀ n ∈ reg, lookupM host'.modules n = lookupM host.modules n) := by
  have hres' : ∀ n ∈ reg, ∃ m, lookupM host.modules n = some m ∧
      (encodeBuffer m).isSome = true :=
    fun n hn => (hres n hn).elim fun m hm => ⟨m, hm.1, encodeBuffer_isSome m hm.2⟩
  have hmem : ∀ n ∈ reg, n ∈ keys host.modules := by
    intro n hn
    obtain ⟨m, hm, _⟩ := hres n hn
    rw [← lookupM_isSome_iff, hm]
    rfl
  obtain ⟨⟨mods', cg'⟩, hl⟩ :=
    getstateLoop_success host reg host.modules [] hnd hkeys hres' hmem
  have hcgkeys : keys cg' = reg := by
    have h0 := getstateLoop_cg_keys host reg host.modules [] mods' cg' hnd
      (by intro n _; simp) hl
    simpa using h0
  have hcgnd : (keys cg').Nodup := by rw [hcgkeys]; exact hnd
  have hblob : getstate host = some ⟨mods', some cg', host.base⟩ := by
    simp only [getstate, hreg, hl]
    rfl
  have hdec : ∀ e ∈ cg', ∃ m, lookupM host.modules e.1 = some m ∧
      decodeBuffer e.2.1 e.2.2 = some m := by
    intro e he
    have he1 : e.1 ∈ reg := by
      rw [← hcgkeys]
      exact mem_keys_of_mem cg' e.1 e.2 he
    obtain ⟨m, hmh, hcg⟩ :=
      getstateLoop_cg_lookup host reg host.modules [] mods' cg' hnd hl e.1 he1
    obtain ⟨m', hm', hser⟩ := hres e.1 he1
    rw [hmh] at hm'
    injection hm' with hm'
    subst hm'
    obtain ⟨record, hencr, hdecr⟩ := encodeBuffer_roundtrip m hser
    have hlk : lookupM cg' e.1 = some e.2 := lookupM_eq_of_mem_nodup cg' e.1 e.2 hcgnd he
    rw [hcg, hencr] at hlk
    injection hlk with hlk
    rw [← hlk]
    exact ⟨m, hmh, hdecr⟩
  obtain ⟨mods'', hset⟩ := setstateLoop_success cg' mods'
    (fun e he => by obtain ⟨m, _, hd⟩ := hdec e he; simp [hd])
  have hsets : setstate target ⟨mods', some cg', host.base⟩ =
      some ⟨mods'', some (keys cg'), host.base⟩ := by
    simp only [setstate, hset]
    rfl
  refine ⟨⟨mods', some cg', host.base⟩, ⟨mods'', some (keys cg'), host.base⟩,
    hblob, hsets, ?_, ?_, ?_⟩
  · rw [show (⟨mods'', some (keys cg'), host.base⟩ : Host).codegen = some (keys cg') from rfl,
      hcgkeys]
  · intro n
    show n ∈ keys mods'' ↔ n ∈ keys host.modules
    rw [setstateLoop_mem_keys cg' mods' mods'' hset n, hcgkeys,
      getstateLoop_mem_keys host reg host.modules [] mods' cg' hkeys hl n]
    constructor
    · rintro (⟨hm, _⟩ | hr)
      · exact hm
      · exact hmem n hr
    · intro hm
      by_cases hr : n ∈ reg
      · exact Or.inr hr
      · exact Or.inl ⟨hm, hr⟩
  · intro n hn
    show lookupM mods'' n = lookupM host.modules n
    have hkeyn : n ∈ keys cg' := by rw [hcgkeys]; exact hn
    obtain ⟨v, hv⟩ := exists_of_mem_keys cg' n hkeyn
    have hdecoded := setstateLoop_lookup_decoded cg' mods' mods'' hcgnd hset (n, v) hv
    obtain ⟨m, hmh, hd⟩ := hdec (n, v) hv
    rw [hdecoded, hd, hmh]

/-- A demo host for the C1 witness: one symbolic-form unit `f` and one
compiled-form unit `s` registered, plus an unmanaged child `u`. -/
def claim1Host : Host :=
  ⟨[("f", .fxGraphModule 1), ("s", .scriptModule 2), ("u", .otherModule 5)],
    some ["f", "s"], 4⟩

/-- The host C1's restore is run into; its prior fields are overwritten. -/
def claim1Target : Host := ⟨[("junk", .otherModule 0)], some ["zz"], 9⟩

theorem claim1_roundtrip_witness :
    ∃ blob host', getstate claim1Host = some blob ∧
      setstate claim1Target blob = some host' ∧
      host'.codegen = some ["f", "s"] ∧
      (∀ n, n ∈ keys host'.modules ↔ n ∈ keys claim1Host.modules) ∧
      (∀ n ∈ ["f", "s"], lookupM host'.modules n = lookupM claim1Host.modules n) :=
  claim1_roundtrip claim1Host claim1Target ["f", "s"] rfl (by decide) (by decide)
    (by
      intro n hn
      simp only [List.mem_cons, List.not_mem_nil, or_false] at hn
      rcases hn with hn | hn <;> subst hn
      · exact ⟨.fxGraphModule 1, rfl, Or.inl rfl⟩
      · exact ⟨.scriptModule 2, rfl, Or.inr rfl⟩)
